import Mathlib

/-!
Verification development for the English-learning annotation app
(React/TypeScript sources under src/).  The document data model and its
operations are shallowly embedded: JS strings become `List Char`, JS
`undefined`-able fields become `Option`, fallible operations return
`Option`, and the platform sentence segmenter (Intl.Segmenter) is a
function parameter constrained by its contract (its segments, in order,
concatenate back to the input).  The random id generator of the source
(generateId / uuidv4) is modelled as a deterministic fresh-id supply over
`Nat`, following the spec design note that identity generation is an
injected capability.
-/

/-- Characters of the JS word pattern [a-zA-Z0-9 apostrophe hyphen] used by
parseTextToBlocks in src/utils/textUtils.ts. -/
def isWordChar (c : Char) : Bool :=
  c.isAlpha || c.isDigit || c == '\'' || c == '-'

/-- Membership test of the JS whitespace class (backslash-s in a regex and
the set trimmed by String.trim): ASCII whitespace plus the Unicode space
separators, line and paragraph separators, and the BOM. -/
def isJsWs (c : Char) : Bool :=
  let n := c.toNat
  n == 32 || n == 9 || n == 10 || n == 11 || n == 12 || n == 13 ||
  n == 0xa0 || n == 0x1680 ||
  (decide (0x2000 ≤ n) && decide (n ≤ 0x200a)) ||
  n == 0x2028 || n == 0x2029 || n == 0x202f || n == 0x205f ||
  n == 0x3000 || n == 0xfeff

/-- Embedding of the token split
`sText.split(/([a-zA-Z0-9'-]+)/g)` followed by dropping empty pieces
(the source skips tokens with length 0): the result is the list of maximal
runs of characters of equal `isWordChar` classification, in order. -/
def chunksCons (c : Char) : List (List Char) → List (List Char)
  | [] => [[c]]
  | [] :: rs => [c] :: [] :: rs
  | (d :: r) :: rs =>
    if isWordChar c == isWordChar d then (c :: d :: r) :: rs else [c] :: (d :: r) :: rs

/-- Right-to-left run grouping: `chunksCons` either merges the character
into the first run (same classification) or starts a new run. -/
def chunks : List Char → List (List Char)
  | [] => []
  | c :: cs => chunksCons c (chunks cs)

/-- Embedding of `fullText.replace(/\r\n/g, newline)`: every CRLF pair
becomes a single LF. -/
def normNewlines : List Char → List Char
  | [] => []
  | '\r' :: '\n' :: rest => '\n' :: normNewlines rest
  | c :: rest => c :: normNewlines rest

/-- Length of the paragraph-separator regex match (LF, then a greedy run of
whitespace, then LF) at the head of the list, if any: the greedy middle
part extends to the last LF inside the maximal whitespace run following the
first LF. -/
def sepLen : List Char → Option Nat
  | [] => none
  | c :: tail =>
    if c == '\n' then
      let r := tail.takeWhile isJsWs
      match r.reverse.findIdx? (fun x => x == '\n') with
      | none => none
      | some j => some (1 + (r.length - j))
    else none

/-- Fuel-indexed worker for the paragraph split: scans left to right, and at
each position either consumes a separator match (emitting the accumulated
piece) or moves one character into the accumulator.  Fuel equal to the list
length always suffices since every step consumes at least one character;
the zero-fuel fallback is unreachable for the fuel used by `splitParas`. -/
def splitParasFuel : Nat → List Char → List Char → List (List Char)
  | _, acc, [] => [acc.reverse]
  | 0, acc, l => [acc.reverse ++ l]
  | Nat.succ n, acc, c :: rest =>
    match sepLen (c :: rest) with
    | some k => acc.reverse :: splitParasFuel n [] (rest.drop (k - 1))
    | none => splitParasFuel n (c :: acc) rest

/-- Embedding of the JS split on the blank-line regex. -/
def splitParas (l : List Char) : List (List Char) :=
  splitParasFuel l.length [] l

/-- Embedding of JS String.trim over the whitespace class `isJsWs`. -/
def trimChars (l : List Char) : List Char :=
  ((l.dropWhile isJsWs).reverse.dropWhile isJsWs).reverse

/-- View modes of a document (src/types.ts). -/
inductive ViewMode where
  | paragraph
  | sentence
deriving DecidableEq, Repr

/-- Token record (WordData in src/types.ts); `text` is the raw token text
and `cleanText` the normalized text, empty for punctuation tokens. -/
structure WordData where
  id : Nat
  text : List Char
  cleanText : List Char
  translation : Option (List Char)
  definition : Option (List Char)
  sentenceIndex : Nat
deriving DecidableEq, Repr

/-- Pinned grammar note (GrammarAnalysis in src/types.ts). -/
structure GrammarAnalysis where
  id : Nat
  sourceText : List Char
  explanation : List Char
deriving DecidableEq, Repr

/-- Paragraph block (ContentBlock in src/types.ts). -/
structure ContentBlock where
  id : Nat
  text : List Char
  words : List WordData
  translation : Option (List Char)
  sentenceTranslations : Option (List (List Char))
  grammarAnalyses : List GrammarAnalysis
deriving DecidableEq, Repr

/-- Document record (LearningDocument in src/types.ts). -/
structure LearningDocument where
  id : Nat
  title : List Char
  createdAt : Nat
  blocks : List ContentBlock
  viewMode : ViewMode
deriving DecidableEq, Repr

/-- Full-match test of the word regex (nonempty and all characters in the
word class), as used on each token by parseTextToBlocks. -/
def isWordToken (t : List Char) : Bool :=
  !t.isEmpty && t.all isWordChar

/-- Token constructed by parseTextToBlocks for the raw slice `t` inside
sentence `sIdx`; the fresh id is assigned afterwards by `withIds`. -/
def mkWord (sIdx : Nat) (t : List Char) : WordData :=
  { id := 0, text := t, cleanText := if isWordToken t then t else [],
    translation := none, definition := none, sentenceIndex := sIdx }

/-- Tokens of the sentence segments `ss`, the first segment carrying
sentence index `i` (the source increments sIndex once per segment). -/
def sentencesWords : Nat → List (List Char) → List WordData
  | _, [] => []
  | i, s :: rest => (chunks s).map (mkWord i) ++ sentencesWords (i + 1) rest

/-- Deterministic fresh-id assignment standing in for generateId. -/
def withIds : Nat → List WordData → List WordData
  | _, [] => []
  | n, w :: ws => { w with id := n } :: withIds (n + 1) ws

/-- Block built from one trimmed nonempty paragraph, given the sentence
segmenter `seg` standing in for Intl.Segmenter with sentence
granularity. -/
def mkBlock (seg : List Char → List (List Char)) (n : Nat) (text : List Char) : ContentBlock :=
  { id := n, text := text, words := withIds 0 (sentencesWords 0 (seg text)),
    translation := none, sentenceTranslations := none, grammarAnalyses := [] }

/-- Blocks of the trimmed nonempty paragraphs, with fresh block ids. -/
def mkBlocks (seg : List Char → List (List Char)) : Nat → List (List Char) → List ContentBlock
  | _, [] => []
  | n, p :: ps => mkBlock seg n p :: mkBlocks seg (n + 1) ps

/-- Embedding of parseTextToBlocks (src/utils/textUtils.ts): normalize
newlines, split on blank-line boundaries, trim, drop empty paragraphs, and
tokenize each remaining paragraph sentence by sentence. -/
def parseTextToBlocks (seg : List Char → List (List Char)) (fullText : List Char) : List ContentBlock :=
  mkBlocks seg 0 (((splitParas (normNewlines fullText)).map trimChars).filter (fun p => !p.isEmpty))

/-- One step of the sentence-array accumulation in getSentencesFromBlock:
the JS code initializes the slot to the empty string when it is unset or
falsy and then appends the token text.  Unset slots below the written index
are padded with the empty string; for blocks produced by parseTextToBlocks
sentence indices arrive in order starting at 0, so no such padding ever
becomes visible. -/
def updSentence (acc : List (List Char)) (idx : Nat) (t : List Char) : List (List Char) :=
  let acc2 := if idx < acc.length then acc else acc ++ List.replicate (idx + 1 - acc.length) []
  acc2.set idx (acc2.getD idx [] ++ t)

/-- Embedding of getSentencesFromBlock (src/utils/textUtils.ts). -/
def getSentencesFromBlock (b : ContentBlock) : List (List Char) :=
  b.words.foldl (fun acc w => updSentence acc w.sentenceIndex w.text) []

/-- Partial update record for a token, embedding Partial WordData as used
by updateWord: a `none` field is a key absent from the JS object, while a
present field overwrites the token field on spread (including overwriting
with undefined, hence the nested Option on the optional fields). -/
structure WordUpdates where
  id : Option Nat := none
  text : Option (List Char) := none
  cleanText : Option (List Char) := none
  translation : Option (Option (List Char)) := none
  definition : Option (Option (List Char)) := none
  sentenceIndex : Option Nat := none
deriving DecidableEq, Repr

/-- JS object spread of a partial update onto a token. -/
def applyWordUpdates (w : WordData) (u : WordUpdates) : WordData :=
  { id := u.id.getD w.id, text := u.text.getD w.text,
    cleanText := u.cleanText.getD w.cleanText,
    translation := u.translation.getD w.translation,
    definition := u.definition.getD w.definition,
    sentenceIndex := u.sentenceIndex.getD w.sentenceIndex }

/-- Per-token step of updateWord: only the token whose id matches is
spread with the updates. -/
def updateWordInWord (wordId : Nat) (u : WordUpdates) (w : WordData) : WordData :=
  if w.id = wordId then applyWordUpdates w u else w

/-- Per-block step of updateWord: only the block whose id matches has its
token list mapped. -/
def updateWordInBlock (blockId wordId : Nat) (u : WordUpdates) (b : ContentBlock) : ContentBlock :=
  if b.id = blockId then { b with words := b.words.map (updateWordInWord wordId u) } else b

/-- Per-document step of updateWord: only the active document has its
block list mapped. -/
def updateWordInDoc (activeDocId blockId wordId : Nat) (u : WordUpdates) (d : LearningDocument) : LearningDocument :=
  if d.id = activeDocId then { d with blocks := d.blocks.map (updateWordInBlock blockId wordId u) } else d

/-- Embedding of updateWord (src/App.tsx): maps the documents, touching at
most one token of one block of the active document. -/
def updateWord (docs : List LearningDocument) (activeDocId blockId wordId : Nat) (u : WordUpdates) : List LearningDocument :=
  docs.map (updateWordInDoc activeDocId blockId wordId u)

/-- Partial update record for a block (Partial ContentBlock), with the
same presence convention as `WordUpdates`. -/
structure BlockUpdates where
  id : Option Nat := none
  text : Option (List Char) := none
  words : Option (List WordData) := none
  translation : Option (Option (List Char)) := none
  sentenceTranslations : Option (Option (List (List Char))) := none
  grammarAnalyses : Option (List GrammarAnalysis) := none
deriving DecidableEq, Repr

/-- JS object spread of a partial update onto a block. -/
def applyBlockUpdates (b : ContentBlock) (u : BlockUpdates) : ContentBlock :=
  { id := u.id.getD b.id, text := u.text.getD b.text,
    words := u.words.getD b.words,
    translation := u.translation.getD b.translation,
    sentenceTranslations := u.sentenceTranslations.getD b.sentenceTranslations,
    grammarAnalyses := u.grammarAnalyses.getD b.grammarAnalyses }

/-- Option-valued map that fails as soon as one element fails, embedding a
JS Array.map whose callback can throw. -/
def traverseOption (f : α → Option β) : List α → Option (List β)
  | [] => some []
  | a :: l =>
    match f a, traverseOption f l with
    | some b, some bs => some (b :: bs)
    | _, _ => none

/-- Update of the one matching block inside updateBlock (src/App.tsx,
first snapshot).  The source guard is `updates.text && updates.text !==
b.text`, so a present but empty text update is treated as falsy and falls
through to the plain spread; when the guard holds the source reads
`parseTextToBlocks(updates.text)[0].words`, which throws (here: `none`)
when the new text parses to no block at all. -/
def updateBlockInBlock (seg : List Char → List (List Char)) (u : BlockUpdates) (b : ContentBlock) : Option ContentBlock :=
  match u.text with
  | some t =>
    if t ≠ [] ∧ t ≠ b.text then
      match (parseTextToBlocks seg t).head? with
      | some rp =>
        some { b with text := t, words := rp.words, translation := none, sentenceTranslations := none }
      | none => none
    else some (applyBlockUpdates b u)
  | none => some (applyBlockUpdates b u)

/-- Embedding of updateBlock (src/App.tsx): maps the documents, editing at
most one block of the active document; `none` models the TypeError thrown
when a text edit re-parses to no block. -/
def updateBlock (seg : List Char → List (List Char)) (docs : List LearningDocument) (activeDocId blockId : Nat) (u : BlockUpdates) : Option (List LearningDocument) :=
  traverseOption
    (fun doc =>
      if doc.id = activeDocId then
        (traverseOption (fun b => if b.id = blockId then updateBlockInBlock seg u b else some b) doc.blocks).map
          (fun bs => { doc with blocks := bs })
      else some doc)
    docs

/-- Embedding of deleteBlock (src/App.tsx): removes the block from every
document that contains a block with this id. -/
def deleteBlock (docs : List LearningDocument) (blockId : Nat) : List LearningDocument :=
  docs.map (fun doc =>
    if doc.blocks.any (fun b => b.id = blockId) then
      { doc with blocks := doc.blocks.filter (fun b => !(b.id = blockId)) }
    else doc)

/-- Result shape of the paragraph-translation collaborator. -/
structure TransResult where
  paragraph : List Char
  sentences : List (List Char)
deriving DecidableEq, Repr

/-- Failure placeholder returned by translateBlockAdvanced on any error. -/
def failedText : List Char := "翻译失败".toList

/-- Embedding of translateBlockAdvanced (src/services/geminiService.ts):
the collaborator call is a function parameter returning `none` on failure;
the catch branch yields the failure placeholder with an empty sentence
list, so the function itself never fails. -/
def translateBlockAdvanced (api : List Char → List (List Char) → Option TransResult)
    (paragraphText : List Char) (sentences : List (List Char)) : TransResult :=
  match api paragraphText sentences with
  | some r => r
  | none => { paragraph := failedText, sentences := [] }

/-- Per-block body of handleFullTranslation (src/App.tsx): the block
receives both translation fields from its own collaborator result. -/
def translateBlockFull (api : List Char → List (List Char) → Option TransResult) (b : ContentBlock) : ContentBlock :=
  let result := translateBlockAdvanced api b.text (getSentencesFromBlock b)
  { b with translation := some result.paragraph, sentenceTranslations := some result.sentences }

/-- New block list computed by handleFullTranslation from the snapshot of
the active document's blocks taken when the batch started. -/
def fullTranslationBlocks (api : List Char → List (List Char) → Option TransResult) (blocks : List ContentBlock) : List ContentBlock :=
  blocks.map (translateBlockFull api)

/-- Completion step of handleFullTranslation: the active document's block
list is replaced wholesale by the batch result. -/
def applyFullTranslation (docs : List LearningDocument) (activeDocId : Nat) (newBlocks : List ContentBlock) : List LearningDocument :=
  docs.map (fun d => if d.id = activeDocId then { d with blocks := newBlocks } else d)

/-- Embedding of the activeDoc selector
`documents.find(d => d.id === activeDocId) || documents[0]`. -/
def activeDocOf (docs : List LearningDocument) (activeDocId : Nat) : Option LearningDocument :=
  match docs.find? (fun d => d.id = activeDocId) with
  | some d => some d
  | none => docs.head?

/-- JS truthiness of an optional string field: undefined and the empty
string are falsy. -/
def jsTruthy : Option (List Char) → Bool
  | none => false
  | some s => !s.isEmpty

/-- Local state of the Word component (src/components/Word.tsx) together
with the store fields of its token and counters of outstanding collaborator
requests; `pendingTranslate` and `pendingDefine` count requests issued and
not yet resolved. -/
structure WordUIState where
  word : WordData
  loading : Bool
  showDetail : Bool
  pendingTranslate : Nat
  pendingDefine : Nat
deriving DecidableEq, Repr

/-- Synchronous effect of handleWordClick (src/components/Word.tsx) up to
the await: a token with empty cleanText is ignored; a token with a truthy
translation has translation and definition cleared and the panel hidden;
otherwise loading is set and one translation request is issued.  The
handler reads no in-flight information. -/
def handleWordClick (s : WordUIState) : WordUIState :=
  if s.word.cleanText.isEmpty then s
  else if jsTruthy s.word.translation then
    { s with word := { s.word with translation := none, definition := none }, showDetail := false }
  else
    { s with loading := true, pendingTranslate := s.pendingTranslate + 1 }

/-- Synchronous effect of handleTransClick (src/components/Word.tsx) up to
the await: ignored without a truthy translation; without a truthy
definition, loading is set and one definition request is issued; otherwise
the detail panel visibility toggles. -/
def handleTransClick (s : WordUIState) : WordUIState :=
  if !jsTruthy s.word.translation then s
  else if !jsTruthy s.word.definition then
    { s with loading := true, pendingDefine := s.pendingDefine + 1 }
  else
    { s with showDetail := !s.showDetail }

/-- Embedding of the load effect (src/App.tsx): read the stored blob,
skip when absent or empty (JS truthiness of the getItem result), replace
the state with the parsed collection on success and swallow the parse
error otherwise.  JSON.parse of the platform is abstracted as the `parse`
parameter. -/
def loadDocuments (parse : List Char → Except (List Char) (List LearningDocument))
    (defaultDocs : List LearningDocument) (saved : Option (List Char)) : List LearningDocument :=
  match saved with
  | none => defaultDocs
  | some s =>
    if s.isEmpty then defaultDocs
    else
      match parse s with
      | Except.error _ => defaultDocs
      | Except.ok ds => ds

/-- Degenerate but contract-satisfying sentence segmenter used to
instantiate witnesses: the whole text is a single sentence. -/
def oneSegment (l : List Char) : List (List Char) :=
  if l.isEmpty then [] else [l]

/-- Segments of `oneSegment` concatenate back to the input. -/
theorem oneSegment_flatten (s : List Char) : (oneSegment s).flatten = s := by
  cases s <;> simp [oneSegment]

/-- Segments of `oneSegment` are nonempty. -/
theorem oneSegment_ne_nil (s x : List Char) (hx : x ∈ oneSegment s) : x ≠ [] := by
  unfold oneSegment at hx
  cases s with
  | nil => simp at hx
  | cons a l =>
    simp at hx
    simp [hx]

/-- The token chunks of a character list concatenate back to the list. -/
theorem chunks_flatten (l : List Char) : (chunks l).flatten = l := by
  induction l with
  | nil => rfl
  | cons c cs ih =>
    unfold chunks
    cases h : chunks cs with
    | nil =>
      simp [h] at ih
      simp [chunksCons, ih.symm]
    | cons r rs =>
      rw [h] at ih
      cases r with
      | nil => simp_all [chunksCons]
      | cons d r2 =>
        by_cases hcd : isWordChar c = isWordChar d
        · simp_all [chunksCons]
        · simp_all [chunksCons]

/-- Assigning ids never changes the token texts. -/
theorem withIds_map_text (n : Nat) (ws : List WordData) :
    (withIds n ws).map (fun w => w.text) = ws.map (fun w => w.text) := by
  induction ws generalizing n with
  | nil => rfl
  | cons w ws ih => simp [withIds, ih]

/-- Token texts of a sentence list concatenate to the concatenation of the
sentences themselves. -/
theorem sentencesWords_text_flatten (i : Nat) (ss : List (List Char)) :
    ((sentencesWords i ss).map (fun w => w.text)).flatten = ss.flatten := by
  induction ss generalizing i with
  | nil => rfl
  | cons s rest ih =>
    simp [sentencesWords, List.map_append, List.flatten_append, List.map_map]
    have hmk : ((fun w => WordData.text w) ∘ mkWord i) = id := by
      funext t
      simp [mkWord]
    rw [hmk, List.map_id, chunks_flatten, ih]

/-- Every block produced by `mkBlocks` comes from one of the paragraphs. -/
theorem mkBlocks_mem (seg : List Char → List (List Char)) (n : Nat) (ps : List (List Char))
    (b : ContentBlock) (hb : b ∈ mkBlocks seg n ps) :
    ∃ k p, p ∈ ps ∧ b = mkBlock seg k p := by
  induction ps generalizing n with
  | nil => simp [mkBlocks] at hb
  | cons p ps ih =>
    simp [mkBlocks] at hb
    cases hb with
    | inl h => exact ⟨n, p, by simp, h⟩
    | inr h =>
      obtain ⟨k, q, hq, he⟩ := ih (n + 1) h
      exact ⟨k, q, by simp [hq], he⟩

/-- C1.  Lossless tokenization: for every sentence segmenter satisfying the
Intl.Segmenter contract (segments concatenate back to the input) and every
input text, each block produced by parseTextToBlocks has the concatenation
of its token texts, in order, equal to the block text. -/
theorem c1_tokenize_roundtrip (seg : List Char → List (List Char))
    (hseg : ∀ s, (seg s).flatten = s) (fullText : List Char)
    (b : ContentBlock) (hb : b ∈ parseTextToBlocks seg fullText) :
    (b.words.map (fun w => w.text)).flatten = b.text := by
  obtain ⟨k, p, _, he⟩ := mkBlocks_mem seg 0 _ b hb
  subst he
  simp [mkBlock, withIds_map_text, sentencesWords_text_flatten, hseg]

/-- Closed instance of `c1_tokenize_roundtrip` on a concrete two-paragraph
text and the concrete segmenter `oneSegment`. -/
theorem c1_tokenize_roundtrip_witness :
    ((((parseTextToBlocks oneSegment ("Hello world.\n\nGoodbye.".toList)).headD
        (mkBlock oneSegment 0 [])).words.map (fun w => w.text)).flatten =
      ((parseTextToBlocks oneSegment ("Hello world.\n\nGoodbye.".toList)).headD
        (mkBlock oneSegment 0 [])).text) :=
  c1_tokenize_roundtrip oneSegment oneSegment_flatten ("Hello world.\n\nGoodbye.".toList)
    ((parseTextToBlocks oneSegment ("Hello world.\n\nGoodbye.".toList)).headD
      (mkBlock oneSegment 0 []))
    (by decide)

/-- Id assignment changes only the id field of each token. -/
theorem withIds_mem (n : Nat) (ws : List WordData) (w : WordData) (hw : w ∈ withIds n ws) :
    ∃ v ∈ ws, w.text = v.text ∧ w.cleanText = v.cleanText ∧ w.translation = v.translation ∧
      w.definition = v.definition ∧ w.sentenceIndex = v.sentenceIndex := by
  induction ws generalizing n with
  | nil => simp [withIds] at hw
  | cons v vs ih =>
    simp [withIds] at hw
    cases hw with
    | inl h => exact ⟨v, by simp, by simp [h]⟩
    | inr h =>
      obtain ⟨u, hu, hp⟩ := ih (n + 1) h
      exact ⟨u, by simp [hu], hp⟩

/-- Every token built by `sentencesWords` is a `mkWord`. -/
theorem sentencesWords_mem (i : Nat) (ss : List (List Char)) (w : WordData)
    (hw : w ∈ sentencesWords i ss) : ∃ j t, w = mkWord j t := by
  induction ss generalizing i with
  | nil => simp [sentencesWords] at hw
  | cons s rest ih =>
    simp [sentencesWords] at hw
    cases hw with
    | inl h =>
      obtain ⟨t, _, he⟩ := h
      exact ⟨i, t, he.symm⟩
    | inr h => exact ih (i + 1) h

/-- Every token of a block produced by parseTextToBlocks has the cleanText
of a fresh `mkWord` and empty enrichment fields. -/
theorem parse_token_shape (seg : List Char → List (List Char)) (fullText : List Char)
    (b : ContentBlock) (hb : b ∈ parseTextToBlocks seg fullText)
    (w : WordData) (hw : w ∈ b.words) :
    w.cleanText = (if isWordToken w.text then w.text else []) ∧
      w.translation = none ∧ w.definition = none := by
  obtain ⟨k, p, _, he⟩ := mkBlocks_mem seg 0 _ b hb
  subst he
  simp [mkBlock] at hw
  obtain ⟨v, hv, htext, hclean, htr, hdef, _⟩ := withIds_mem 0 _ w hw
  obtain ⟨j, t, hvt⟩ := sentencesWords_mem 0 _ v hv
  subst hvt
  simp [mkWord] at htext hclean htr hdef
  subst htext
  refine ⟨?_, htr, hdef⟩
  rw [hclean]

/-- C6.  Classification: for every token produced by parseTextToBlocks,
the normalized text (cleanText) is nonempty exactly when the raw token text
matches the word pattern in full (nonempty and made only of letters,
digits, apostrophe, hyphen), and a nonempty cleanText equals the raw
text. -/
theorem c6_classification (seg : List Char → List (List Char)) (fullText : List Char)
    (b : ContentBlock) (hb : b ∈ parseTextToBlocks seg fullText)
    (w : WordData) (hw : w ∈ b.words) :
    (w.cleanText ≠ [] ↔ isWordToken w.text = true) ∧
      (w.cleanText ≠ [] → w.cleanText = w.text) := by
  obtain ⟨hclean, -, -⟩ := parse_token_shape seg fullText b hb w hw
  by_cases ht : isWordToken w.text
  · simp [ht] at hclean
    have hne : w.text ≠ [] := by
      intro hnil
      simp [isWordToken, hnil] at ht
    simp [hclean, ht, hne]
  · simp [ht] at hclean
    simp [hclean, ht]

/-- Closed instance of `c6_classification` at the word token Hello and the
concrete segmenter `oneSegment`. -/
theorem c6_classification_witness :
    ((((parseTextToBlocks oneSegment ("Hello world.".toList)).headD
          (mkBlock oneSegment 0 [])).words.headD (mkWord 0 [])).cleanText ≠ [] ↔
        isWordToken (((parseTextToBlocks oneSegment ("Hello world.".toList)).headD
          (mkBlock oneSegment 0 [])).words.headD (mkWord 0 [])).text = true) ∧
      ((((parseTextToBlocks oneSegment ("Hello world.".toList)).headD
          (mkBlock oneSegment 0 [])).words.headD (mkWord 0 [])).cleanText ≠ [] →
        (((parseTextToBlocks oneSegment ("Hello world.".toList)).headD
          (mkBlock oneSegment 0 [])).words.headD (mkWord 0 [])).cleanText =
          (((parseTextToBlocks oneSegment ("Hello world.".toList)).headD
            (mkBlock oneSegment 0 [])).words.headD (mkWord 0 [])).text) :=
  c6_classification oneSegment ("Hello world.".toList)
    ((parseTextToBlocks oneSegment ("Hello world.".toList)).headD (mkBlock oneSegment 0 []))
    (by decide)
    (((parseTextToBlocks oneSegment ("Hello world.".toList)).headD
        (mkBlock oneSegment 0 [])).words.headD (mkWord 0 []))
    (by decide)

/-- Reading just past the end of a list extended by one element. -/
theorem getD_append_len (l : List α) (x d : α) : (l ++ [x]).getD l.length d = x := by
  induction l with
  | nil => rfl
  | cons a l ih => simp [ih]

/-- Writing just past the end of a list extended by one element. -/
theorem set_append_len (l : List α) (x y : α) : (l ++ [x]).set l.length y = l ++ [y] := by
  induction l with
  | nil => rfl
  | cons a l ih => simp [ih]

/-- Appending a token at a fresh sentence slot creates that slot. -/
theorem updSentence_new (acc : List (List Char)) (t : List Char) :
    updSentence acc acc.length t = acc ++ [t] := by
  unfold updSentence
  simp only [lt_irrefl, if_false, Nat.add_sub_cancel_left, List.replicate_one]
  rw [getD_append_len]
  simp only [List.nil_append]
  rw [set_append_len]

/-- Appending a token at the last, already started sentence slot extends
that slot. -/
theorem updSentence_last (acc : List (List Char)) (x t : List Char) :
    updSentence (acc ++ [x]) acc.length t = acc ++ [x ++ t] := by
  unfold updSentence
  have hlt : acc.length < (acc ++ [x]).length := by simp
  simp only [hlt, if_true]
  rw [getD_append_len, set_append_len]

/-- The accumulation step of getSentencesFromBlock. -/
def sentStep (acc : List (List Char)) (w : WordData) : List (List Char) :=
  updSentence acc w.sentenceIndex w.text

/-- Folding the remaining tokens of the sentence currently being built
appends their texts into the last slot. -/
theorem foldl_sentStep_same (ts : List (List Char)) (acc : List (List Char)) (x : List Char) :
    List.foldl sentStep (acc ++ [x]) (ts.map (mkWord acc.length)) = acc ++ [x ++ ts.flatten] := by
  induction ts generalizing x with
  | nil => simp
  | cons t ts ih =>
    simp only [List.map_cons, List.foldl_cons]
    have hstep : sentStep (acc ++ [x]) (mkWord acc.length t) = acc ++ [x ++ t] := by
      simp [sentStep, mkWord, updSentence_last]
    rw [hstep, ih]
    simp

/-- Folding the tokens of one whole sentence appends the concatenation of
their texts as a fresh slot. -/
theorem foldl_sentStep_sentence (ts : List (List Char)) (acc : List (List Char)) (hts : ts ≠ []) :
    List.foldl sentStep acc (ts.map (mkWord acc.length)) = acc ++ [ts.flatten] := by
  cases ts with
  | nil => exact absurd rfl hts
  | cons t ts =>
    simp only [List.map_cons, List.foldl_cons]
    have hstep : sentStep acc (mkWord acc.length t) = acc ++ [t] := by
      simp [sentStep, mkWord, updSentence_new]
    rw [hstep, foldl_sentStep_same]
    simp

/-- A nonempty character list has nonempty chunks. -/
theorem chunks_ne_nil (s : List Char) (hs : s ≠ []) : chunks s ≠ [] := by
  intro h
  apply hs
  have := chunks_flatten s
  rw [h] at this
  simpa using this.symm

/-- Folding all tokens of a list of nonempty sentences, starting at the
sentence index equal to the accumulator length, appends the sentences
themselves. -/
theorem foldl_sentStep_sentences (ss : List (List Char)) (acc : List (List Char))
    (hss : ∀ s ∈ ss, s ≠ []) :
    List.foldl sentStep acc (sentencesWords acc.length ss) = acc ++ ss := by
  induction ss generalizing acc with
  | nil => simp [sentencesWords]
  | cons s rest ih =>
    simp only [sentencesWords, List.foldl_append]
    have h1 : List.foldl sentStep acc ((chunks s).map (mkWord acc.length)) = acc ++ [s] := by
      rw [foldl_sentStep_sentence _ _ (chunks_ne_nil s (hss s (by simp)))]
      rw [chunks_flatten]
    rw [h1]
    have hlen : acc.length + 1 = (acc ++ [s]).length := by simp
    rw [hlen, ih (acc ++ [s]) (fun x hx => hss x (by simp [hx]))]
    simp

/-- The fold of getSentencesFromBlock ignores token ids. -/
theorem foldl_sentStep_withIds (ws : List WordData) (n : Nat) (acc : List (List Char)) :
    List.foldl sentStep acc (withIds n ws) = List.foldl sentStep acc ws := by
  induction ws generalizing n acc with
  | nil => rfl
  | cons w ws ih =>
    simp only [withIds, List.foldl_cons]
    have : sentStep acc { w with id := n } = sentStep acc w := rfl
    rw [this, ih]

/-- For a block produced by parseTextToBlocks with a contract-satisfying
segmenter, getSentencesFromBlock returns exactly the sentence segments of
the block text. -/
theorem getSentencesFromBlock_of_parse (seg : List Char → List (List Char))
    (hne : ∀ s x, x ∈ seg s → x ≠ []) (fullText : List Char)
    (b : ContentBlock) (hb : b ∈ parseTextToBlocks seg fullText) :
    getSentencesFromBlock b = seg b.text := by
  obtain ⟨k, p, _, he⟩ := mkBlocks_mem seg 0 _ b hb
  subst he
  show List.foldl sentStep [] (mkBlock seg k p).words = seg (mkBlock seg k p).text
  simp only [mkBlock]
  rw [foldl_sentStep_withIds]
  have h0 : (0 : Nat) = ([] : List (List Char)).length := rfl
  rw [h0, foldl_sentStep_sentences (seg p) [] (hne p)]
  simp

/-- Sentence indices assigned by `sentencesWords` start at the given index
and stay below index plus sentence count. -/
theorem sentencesWords_index_bounds (i : Nat) (ss : List (List Char)) (w : WordData)
    (hw : w ∈ sentencesWords i ss) :
    i ≤ w.sentenceIndex ∧ w.sentenceIndex < i + ss.length := by
  induction ss generalizing i with
  | nil => simp [sentencesWords] at hw
  | cons s rest ih =>
    simp [sentencesWords] at hw
    cases hw with
    | inl h =>
      obtain ⟨t, _, he⟩ := h
      constructor
      · rw [← he]
        simp [mkWord]
      · rw [← he]
        simp [mkWord]
    | inr h =>
      obtain ⟨h1, h2⟩ := ih (i + 1) h
      constructor
      · omega
      · simp only [List.length_cons]
        omega

/-- The tokens of `sentencesWords` carrying sentence index i plus j are
exactly the chunks of the j-th sentence. -/
theorem sentencesWords_filter (ss : List (List Char)) (i j : Nat) :
    ((sentencesWords i ss).filter (fun w => w.sentenceIndex == i + j)).map (fun w => w.text) =
      chunks (ss.getD j []) := by
  induction ss generalizing i j with
  | nil => simp [sentencesWords, chunks]
  | cons s rest ih =>
    simp only [sentencesWords, List.filter_append, List.map_append]
    cases j with
    | zero =>
      have h1 : ((chunks s).map (mkWord i)).filter (fun w => w.sentenceIndex == i + 0) =
          (chunks s).map (mkWord i) := by
        apply List.filter_eq_self.mpr
        intro w hw
        simp at hw
        obtain ⟨t, _, he⟩ := hw
        simp [← he, mkWord]
      have h2 : (sentencesWords (i + 1) rest).filter (fun w => w.sentenceIndex == i + 0) = [] := by
        apply List.filter_eq_nil_iff.mpr
        intro w hw
        obtain ⟨hlo, _⟩ := sentencesWords_index_bounds (i + 1) rest w hw
        simp
        omega
      rw [h1, h2]
      simp [List.map_map]
      have hmk : ((fun w => WordData.text w) ∘ mkWord i) = id := by
        funext t
        simp [mkWord]
      rw [hmk, List.map_id]
    | succ j2 =>
      have h1 : ((chunks s).map (mkWord i)).filter (fun w => w.sentenceIndex == i + (j2 + 1)) = [] := by
        apply List.filter_eq_nil_iff.mpr
        intro w hw
        simp at hw
        obtain ⟨t, _, he⟩ := hw
        simp [← he, mkWord]
      have h2 : i + (j2 + 1) = (i + 1) + j2 := by omega
      rw [h1, h2, ih (i + 1) j2]
      simp

/-- Token texts of a filtered id-assigned list agree with the filtered
original when the filter only reads the sentence index. -/
theorem withIds_filter_text (ws : List WordData) (n j : Nat) :
    ((withIds n ws).filter (fun w => w.sentenceIndex == j)).map (fun w => w.text) =
      (ws.filter (fun w => w.sentenceIndex == j)).map (fun w => w.text) := by
  induction ws generalizing n with
  | nil => rfl
  | cons w ws ih =>
    simp only [withIds, List.filter_cons]
    by_cases hj : (w.sentenceIndex == j) = true
    · rw [if_pos hj, if_pos hj]
      simp only [List.map_cons]
      have htext : ({ w with id := n } : WordData).text = w.text := rfl
      rw [htext, ih]
    · rw [if_neg hj, if_neg hj]
      exact ih (n + 1)

/-- C9.  For every block produced by parseTextToBlocks with a segmenter
satisfying the Intl.Segmenter contract (nonempty segments concatenating
back to the input), getSentencesFromBlock returns exactly one string per
sentence: the list of sentence segments of the block text, where the j-th
returned string is the concatenation of the raw texts of the tokens
carrying sentence index j, and the concatenation of all returned strings
is the block text. -/
theorem c9_sentences_partition (seg : List Char → List (List Char))
    (hseg : ∀ s, (seg s).flatten = s) (hne : ∀ s x, x ∈ seg s → x ≠ [])
    (fullText : List Char) (b : ContentBlock) (hb : b ∈ parseTextToBlocks seg fullText) :
    getSentencesFromBlock b = seg b.text ∧
      (∀ j, (getSentencesFromBlock b).getD j [] =
        ((b.words.filter (fun w => w.sentenceIndex == j)).map (fun w => w.text)).flatten) ∧
      (getSentencesFromBlock b).flatten = b.text := by
  have hmain := getSentencesFromBlock_of_parse seg hne fullText b hb
  refine ⟨hmain, ?_, by rw [hmain, hseg]⟩
  intro j
  obtain ⟨k, p, _, he⟩ := mkBlocks_mem seg 0 _ b hb
  have hwords : b.words = withIds 0 (sentencesWords 0 (seg p)) := by rw [he]; rfl
  have htext : b.text = p := by rw [he]; rfl
  rw [hmain, htext, hwords, withIds_filter_text]
  have h0 : ∀ w : WordData, (fun w : WordData => w.sentenceIndex == j) w =
      (fun w : WordData => w.sentenceIndex == 0 + j) w := by
    intro w
    simp
  rw [List.filter_congr (fun w _ => h0 w), sentencesWords_filter (seg p) 0 j, chunks_flatten]

/-- Closed instance of `c9_sentences_partition` on a concrete block. -/
theorem c9_sentences_partition_witness :
    (getSentencesFromBlock ((parseTextToBlocks oneSegment ("Hello world.".toList)).headD
        (mkBlock oneSegment 0 []))).flatten =
      ((parseTextToBlocks oneSegment ("Hello world.".toList)).headD (mkBlock oneSegment 0 [])).text :=
  (c9_sentences_partition oneSegment oneSegment_flatten oneSegment_ne_nil ("Hello world.".toList)
    ((parseTextToBlocks oneSegment ("Hello world.".toList)).headD (mkBlock oneSegment 0 []))
    (by decide)).2.2

/-- Mapping a function that fixes every element of a list is the
identity. -/
theorem map_eq_self_of_fix (l : List α) (f : α → α) (h : ∀ a ∈ l, f a = a) : l.map f = l := by
  have hg : ∀ a ∈ l, f a = id a := h
  rw [List.map_congr_left hg, List.map_id]

/-- C10.  Frame property of updateWord: the document count is preserved;
a document whose id is not the active id is unchanged; in the active
document only the block with the given block id can change, and inside it
only tokens with the given word id can change, every other block field
staying equal; and when no token of a matching block of the active
document carries the word id, the whole state is unchanged. -/
theorem c10_updateWord_frame (docs : List LearningDocument) (a bid wid : Nat) (u : WordUpdates) :
    (updateWord docs a bid wid u).length = docs.length ∧
    (∀ i d r, docs.get? i = some d → (updateWord docs a bid wid u).get? i = some r →
      (d.id ≠ a → r = d) ∧
      (d.id = a →
        r.id = d.id ∧ r.title = d.title ∧ r.createdAt = d.createdAt ∧ r.viewMode = d.viewMode ∧
        r.blocks.length = d.blocks.length ∧
        (∀ j b rb, d.blocks.get? j = some b → r.blocks.get? j = some rb →
          (b.id ≠ bid → rb = b) ∧
          (b.id = bid →
            rb.id = b.id ∧ rb.text = b.text ∧ rb.translation = b.translation ∧
            rb.sentenceTranslations = b.sentenceTranslations ∧
            rb.grammarAnalyses = b.grammarAnalyses ∧
            rb.words.length = b.words.length ∧
            (∀ k w v, b.words.get? k = some w → rb.words.get? k = some v →
              w.id ≠ wid → v = w))))) ∧
    ((∀ d ∈ docs, d.id = a → ∀ b ∈ d.blocks, b.id = bid → ∀ w ∈ b.words, w.id ≠ wid) →
      updateWord docs a bid wid u = docs) := by
  refine ⟨by simp [updateWord], ?_, ?_⟩
  · intro i d r hd hr
    rw [updateWord, List.get?_map, hd] at hr
    simp at hr
    subst hr
    constructor
    · intro hda
      simp [updateWordInDoc, hda]
    · intro hda
      simp only [updateWordInDoc]
      rw [if_pos hda]
      refine ⟨rfl, rfl, rfl, rfl, by simp, ?_⟩
      intro j b rb hb hrb
      simp only [List.get?_map, hb] at hrb
      simp at hrb
      subst hrb
      constructor
      · intro hbb
        simp [updateWordInBlock, hbb]
      · intro hbb
        simp only [updateWordInBlock]
        rw [if_pos hbb]
        refine ⟨rfl, rfl, rfl, rfl, rfl, by simp, ?_⟩
        intro k w v hw hv hwid
        simp only [List.get?_map, hw] at hv
        simp at hv
        subst hv
        simp [updateWordInWord, hwid]
  · intro hnone
    rw [updateWord]
    apply map_eq_self_of_fix
    intro d hd
    rw [updateWordInDoc]
    by_cases hda : d.id = a
    · rw [if_pos hda]
      have hblocks : d.blocks.map (updateWordInBlock bid wid u) = d.blocks := by
        apply map_eq_self_of_fix
        intro b hb
        rw [updateWordInBlock]
        by_cases hbb : b.id = bid
        · rw [if_pos hbb]
          have hwords : b.words.map (updateWordInWord wid u) = b.words := by
            apply map_eq_self_of_fix
            intro w hw
            rw [updateWordInWord]
            simp [hnone d hd hda b hb hbb w hw]
          rw [hwords]
        · rw [if_neg hbb]
      rw [hblocks]
    · rw [if_neg hda]

/-- Closed instance of `c10_updateWord_frame`: updating a word id absent
from the state leaves a concrete two-document state unchanged. -/
theorem c10_updateWord_frame_witness :
    updateWord
      [{ id := 0, title := [], createdAt := 0,
         blocks := [{ id := 1, text := ['H', 'i'],
                      words := [{ id := 2, text := ['H', 'i'], cleanText := ['H', 'i'],
                                  translation := none, definition := none, sentenceIndex := 0 }],
                      translation := none, sentenceTranslations := none, grammarAnalyses := [] }],
         viewMode := ViewMode.paragraph },
       { id := 7, title := [], createdAt := 0, blocks := [], viewMode := ViewMode.sentence }]
      0 1 99 { translation := some (some ['x']) } =
      [{ id := 0, title := [], createdAt := 0,
         blocks := [{ id := 1, text := ['H', 'i'],
                      words := [{ id := 2, text := ['H', 'i'], cleanText := ['H', 'i'],
                                  translation := none, definition := none, sentenceIndex := 0 }],
                      translation := none, sentenceTranslations := none, grammarAnalyses := [] }],
         viewMode := ViewMode.paragraph },
       { id := 7, title := [], createdAt := 0, blocks := [], viewMode := ViewMode.sentence }] :=
  (c10_updateWord_frame
      [{ id := 0, title := [], createdAt := 0,
         blocks := [{ id := 1, text := ['H', 'i'],
                      words := [{ id := 2, text := ['H', 'i'], cleanText := ['H', 'i'],
                                  translation := none, definition := none, sentenceIndex := 0 }],
                      translation := none, sentenceTranslations := none, grammarAnalyses := [] }],
         viewMode := ViewMode.paragraph },
       { id := 7, title := [], createdAt := 0, blocks := [], viewMode := ViewMode.sentence }]
      0 1 99 { translation := some (some ['x']) }).2.2 (by decide)

/-- Sample token used by concrete instances. -/
def sampleWord (n : Nat) (t : List Char) : WordData :=
  { id := n, text := t, cleanText := t, translation := none, definition := none,
    sentenceIndex := 0 }

/-- Sample block used by concrete instances. -/
def sampleBlock (n : Nat) (t : List Char) : ContentBlock :=
  { id := n, text := t, words := [sampleWord (n * 10) t], translation := none,
    sentenceTranslations := none, grammarAnalyses := [] }

/-- Sample document used by concrete instances. -/
def emptyDoc : LearningDocument :=
  { id := 0, title := [], createdAt := 0, blocks := [], viewMode := ViewMode.paragraph }

/-- C7.  Toggle: activating (word click) an interactable token whose
translation is truthy clears both the translation and the definition and
hides the definition panel, leaving every other component field as it
was. -/
theorem c7_toggle_clears_enrichment (s : WordUIState)
    (hclean : s.word.cleanText ≠ []) (htr : jsTruthy s.word.translation = true) :
    handleWordClick s =
      { s with word := { s.word with translation := none, definition := none },
               showDetail := false } := by
  have hempty : s.word.cleanText.isEmpty = false := by
    cases h : s.word.cleanText with
    | nil => exact absurd h hclean
    | cons a l => rfl
  unfold handleWordClick
  rw [hempty]
  simp [htr]

/-- Closed instance of `c7_toggle_clears_enrichment` on a concrete
translated token. -/
theorem c7_toggle_clears_enrichment_witness :
    handleWordClick
      { word := { id := 0, text := ['H', 'i'], cleanText := ['H', 'i'],
                  translation := some ['x'], definition := some ['y'], sentenceIndex := 0 },
        loading := false, showDetail := true, pendingTranslate := 0, pendingDefine := 0 } =
      { word := { id := 0, text := ['H', 'i'], cleanText := ['H', 'i'],
                  translation := none, definition := none, sentenceIndex := 0 },
        loading := false, showDetail := false, pendingTranslate := 0, pendingDefine := 0 } :=
  c7_toggle_clears_enrichment
    { word := { id := 0, text := ['H', 'i'], cleanText := ['H', 'i'],
                translation := some ['x'], definition := some ['y'], sentenceIndex := 0 },
      loading := false, showDetail := true, pendingTranslate := 0, pendingDefine := 0 }
    (by decide) (by decide)

/-- C4 counterexample: with one translation request already in flight for
an untranslated interactable token, a further word-click activation is not
a no-op; it changes the state and issues a second request (the handlers
never consult the in-flight state). -/
theorem c4_counterexample :
    1 ≤ ({ word := sampleWord 0 ['w'], loading := true, showDetail := false,
           pendingTranslate := 1, pendingDefine := 0 } : WordUIState).pendingTranslate ∧
    handleWordClick
        { word := sampleWord 0 ['w'], loading := true, showDetail := false,
          pendingTranslate := 1, pendingDefine := 0 } ≠
      { word := sampleWord 0 ['w'], loading := true, showDetail := false,
        pendingTranslate := 1, pendingDefine := 0 } ∧
    (handleWordClick
        { word := sampleWord 0 ['w'], loading := true, showDetail := false,
          pendingTranslate := 1, pendingDefine := 0 }).pendingTranslate = 2 := by
  decide

/-- C4 as amended.  The handlers enforce no per-token request
deduplication: a word click on an untranslated interactable token always
issues one more translation request without touching the token, and a
badge click on a translated token without a definition always issues one
more definition request, in both cases regardless of any requests already
in flight. -/
theorem c4_activation_always_requests (s : WordUIState) :
    (s.word.cleanText ≠ [] → jsTruthy s.word.translation = false →
      (handleWordClick s).pendingTranslate = s.pendingTranslate + 1 ∧
      (handleWordClick s).pendingDefine = s.pendingDefine ∧
      (handleWordClick s).word = s.word) ∧
    (jsTruthy s.word.translation = true → jsTruthy s.word.definition = false →
      (handleTransClick s).pendingDefine = s.pendingDefine + 1 ∧
      (handleTransClick s).pendingTranslate = s.pendingTranslate ∧
      (handleTransClick s).word = s.word) := by
  constructor
  · intro hclean htr
    have hempty : s.word.cleanText.isEmpty = false := by
      cases h : s.word.cleanText with
      | nil => exact absurd h hclean
      | cons a l => rfl
    unfold handleWordClick
    rw [hempty]
    simp [htr]
  · intro htr hdef
    unfold handleTransClick
    rw [htr, hdef]
    simp

/-- Closed instance of `c4_activation_always_requests` at a state that
already has one request in flight: the second activation issues another
request. -/
theorem c4_activation_always_requests_witness :
    (handleWordClick
        { word := sampleWord 0 ['w'], loading := true, showDetail := false,
          pendingTranslate := 1, pendingDefine := 0 }).pendingTranslate = 1 + 1 ∧
    (handleWordClick
        { word := sampleWord 0 ['w'], loading := true, showDetail := false,
          pendingTranslate := 1, pendingDefine := 0 }).pendingDefine = 0 ∧
    (handleWordClick
        { word := sampleWord 0 ['w'], loading := true, showDetail := false,
          pendingTranslate := 1, pendingDefine := 0 }).word = sampleWord 0 ['w'] :=
  (c4_activation_always_requests
    { word := sampleWord 0 ['w'], loading := true, showDetail := false,
      pendingTranslate := 1, pendingDefine := 0 }).1 (by decide) (by decide)

/-- C8.  The load path is total and two-valued: it either returns the
default collection (no blob, empty blob, or parse failure) or returns
exactly the parsed stored collection; a load failure never escapes and the
state always holds a document list. -/
theorem c8_load_never_fails (parse : List Char → Except (List Char) (List LearningDocument))
    (defaultDocs : List LearningDocument) (saved : Option (List Char)) :
    loadDocuments parse defaultDocs saved = defaultDocs ∨
      ∃ s ds, saved = some s ∧ parse s = Except.ok ds ∧
        loadDocuments parse defaultDocs saved = ds := by
  cases saved with
  | none => exact Or.inl rfl
  | some s =>
    by_cases hs : s.isEmpty
    · left
      simp [loadDocuments, hs]
    · cases hp : parse s with
      | error e =>
        left
        simp [loadDocuments, hs, hp]
      | ok ds =>
        right
        exact ⟨s, ds, rfl, hp, by simp [loadDocuments, hs, hp]⟩

/-- C3 counterexample: when the paragraph-translation request fails for a
block, that block is not left unmodified — the batch writes the failure
placeholder into its translation and an empty sentence-translation list. -/
theorem c3_counterexample :
    fullTranslationBlocks (fun _ _ => none) [sampleBlock 1 ['A']] =
      [{ sampleBlock 1 ['A'] with
          translation := some failedText, sentenceTranslations := some [] }] ∧
    fullTranslationBlocks (fun _ _ => none) [sampleBlock 1 ['A']] ≠ [sampleBlock 1 ['A']] := by
  constructor
  · rfl
  · intro h
    have h2 : (fullTranslationBlocks (fun _ _ => none) [sampleBlock 1 ['A']]).map
        (fun b => b.translation) = [some failedText] := rfl
    rw [h] at h2
    simp [sampleBlock] at h2

/-- C3 as amended.  Partial-failure isolation with a failure marker: every
block of the batch is attempted and receives its own collaborator result
independently of the other blocks; a failing block keeps its id, text,
tokens and grammar notes but has its translation set to the failure
placeholder and its sentence translations set to the empty list, while a
succeeding block receives the returned paragraph and sentence
translations. -/
theorem c3_partial_failure_isolation (api : List Char → List (List Char) → Option TransResult)
    (blocks : List ContentBlock) (i : Nat) (b : ContentBlock)
    (hb : blocks.get? i = some b) :
    (fullTranslationBlocks api blocks).length = blocks.length ∧
    ∃ rb, (fullTranslationBlocks api blocks).get? i = some rb ∧
      rb.id = b.id ∧ rb.text = b.text ∧ rb.words = b.words ∧
      rb.grammarAnalyses = b.grammarAnalyses ∧
      (api b.text (getSentencesFromBlock b) = none →
        rb.translation = some failedText ∧ rb.sentenceTranslations = some []) ∧
      (∀ r, api b.text (getSentencesFromBlock b) = some r →
        rb.translation = some r.paragraph ∧ rb.sentenceTranslations = some r.sentences) := by
  refine ⟨by simp [fullTranslationBlocks], ?_⟩
  refine ⟨translateBlockFull api b, ?_, ?_, ?_, ?_, ?_, ?_, ?_⟩
  · rw [fullTranslationBlocks, List.get?_map, hb]
    rfl
  · rfl
  · rfl
  · rfl
  · rfl
  · intro hfail
    simp [translateBlockFull, translateBlockAdvanced, hfail]
  · intro r hok
    simp [translateBlockFull, translateBlockAdvanced, hok]

/-- Closed instance of `c3_partial_failure_isolation` on a two-block batch
whose second block fails: the first block still receives its result. -/
theorem c3_partial_failure_isolation_witness :
    (fullTranslationBlocks
        (fun t _ => if t = ['A'] then some { paragraph := ['a'], sentences := [['a']] } else none)
        [sampleBlock 1 ['A'], sampleBlock 2 ['B']]).length = 2 := by
  have h := c3_partial_failure_isolation
    (fun t _ => if t = ['A'] then some { paragraph := ['a'], sentences := [['a']] } else none)
    [sampleBlock 1 ['A'], sampleBlock 2 ['B']] 0 (sampleBlock 1 ['A']) (by decide)
  exact h.1

/-- C5.  A document-level translation batch snapshots the active document
block list; deleting a block while the batch is in flight and then applying
the batch result reintroduces the deleted block, because
handleFullTranslation replaces the block list wholesale with the translated
snapshot instead of checking that each block still exists.  Concretely:
after deleting block 2 the active document holds only block 1, but applying
the in-flight batch result restores both blocks. -/
theorem c5_deleted_block_reintroduced :
    (deleteBlock
        [{ emptyDoc with blocks := [sampleBlock 1 ['A'], sampleBlock 2 ['B']] }] 2).map
      (fun d => d.blocks.map (fun b => b.id)) = [[1]] ∧
    (applyFullTranslation
        (deleteBlock [{ emptyDoc with blocks := [sampleBlock 1 ['A'], sampleBlock 2 ['B']] }] 2)
        0
        (fullTranslationBlocks (fun _ _ => none)
          (((activeDocOf [{ emptyDoc with blocks := [sampleBlock 1 ['A'], sampleBlock 2 ['B']] }]
              0).getD emptyDoc).blocks))).map
      (fun d => d.blocks.map (fun b => b.id)) = [[1, 2]] := by
  constructor
  · rfl
  · rfl

/-- A traversal whose function succeeds everywhere is the map of the
returned values. -/
theorem traverseOption_map (f : α → Option β) (g : α → β) (l : List α)
    (h : ∀ x ∈ l, f x = some (g x)) : traverseOption f l = some (l.map g) := by
  induction l with
  | nil => rfl
  | cons a l ih =>
    simp only [traverseOption]
    rw [h a (by simp), ih (fun x hx => h x (by simp [hx]))]
    simp

/-- Head of a list is a member. -/
theorem head?_mem (l : List α) (a : α) (h : l.head? = some a) : a ∈ l := by
  cases l with
  | nil => simp at h
  | cons x xs =>
    simp at h
    simp [h]

/-- Result of the matching-block step of updateBlock on a pure nonempty
text update: equal text falls through unchanged, different text is
replaced together with freshly parsed tokens and cleared translations. -/
def editTextInBlock (t : List Char) (rp : ContentBlock) (bid : Nat) (b : ContentBlock) : ContentBlock :=
  if b.id = bid then
    (if t = b.text then b
     else { b with text := t, words := rp.words, translation := none,
                   sentenceTranslations := none })
  else b

/-- Result of updateBlock on a pure nonempty text update at the document
level. -/
def editTextInDoc (t : List Char) (rp : ContentBlock) (a bid : Nat) (d : LearningDocument) : LearningDocument :=
  if d.id = a then { d with blocks := d.blocks.map (editTextInBlock t rp bid) } else d

/-- The matching-block step of updateBlock on a nonempty text update that
parses to a first block `rp` always succeeds and is `editTextInBlock`. -/
theorem updateBlockInBlock_text (seg : List Char → List (List Char)) (t : List Char)
    (rp : ContentBlock) (ht : t ≠ []) (hrp : (parseTextToBlocks seg t).head? = some rp)
    (b : ContentBlock) :
    updateBlockInBlock seg { text := some t } b =
      some (if t = b.text then b
        else { b with text := t, words := rp.words, translation := none,
                      sentenceTranslations := none }) := by
  have hdef : updateBlockInBlock seg { text := some t } b =
      (if t ≠ [] ∧ t ≠ b.text then
        match (parseTextToBlocks seg t).head? with
        | some rp2 =>
          some { b with text := t, words := rp2.words, translation := none,
                        sentenceTranslations := none }
        | none => none
      else some (applyBlockUpdates b { text := some t })) := rfl
  by_cases htb : t = b.text
  · have hcond : ¬ (t ≠ [] ∧ t ≠ b.text) := by
      intro hand
      exact hand.2 htb
    rw [hdef, if_neg hcond, if_pos htb]
    have happ : applyBlockUpdates b { text := some t } = b := by
      simp [applyBlockUpdates, htb]
    rw [happ]
  · have hcond : t ≠ [] ∧ t ≠ b.text := ⟨ht, htb⟩
    rw [hdef, if_pos hcond, if_neg htb, hrp]

/-- updateBlock on a nonempty text update that parses to a first block
succeeds and acts as `editTextInDoc` on every document. -/
theorem updateBlock_text_eq (seg : List Char → List (List Char))
    (docs : List LearningDocument) (a bid : Nat) (t : List Char) (rp : ContentBlock)
    (ht : t ≠ []) (hrp : (parseTextToBlocks seg t).head? = some rp) :
    updateBlock seg docs a bid { text := some t } =
      some (docs.map (editTextInDoc t rp a bid)) := by
  unfold updateBlock
  apply traverseOption_map
  intro d _
  by_cases hda : d.id = a
  · rw [if_pos hda]
    have hblocks : traverseOption
        (fun b => if b.id = bid then updateBlockInBlock seg { text := some t } b else some b)
        d.blocks = some (d.blocks.map (editTextInBlock t rp bid)) := by
      apply traverseOption_map
      intro b _
      by_cases hbb : b.id = bid
      · rw [if_pos hbb, updateBlockInBlock_text seg t rp ht hrp b]
        unfold editTextInBlock
        rw [if_pos hbb]
      · rw [if_neg hbb]
        unfold editTextInBlock
        rw [if_neg hbb]
    rw [hblocks]
    unfold editTextInDoc
    rw [if_pos hda]
    rfl
  · rw [if_neg hda]
    unfold editTextInDoc
    rw [if_neg hda]

/-- C2 as amended.  Edit invalidation for a nonempty new text that
re-tokenizes to at least one block: the operation succeeds, leaves every
other document and block unchanged, and on the matching block of the
active document either does nothing (new text equal to the current text)
or keeps the block id and grammar notes, replaces the text and the token
list by the freshly parsed one (all of whose tokens carry no translation
and no definition), and clears the block translation and the sentence
translations.  With an empty new text the source guard treats the update
as a plain field overwrite instead (see the counterexample). -/
theorem c2_edit_invalidation (seg : List Char → List (List Char))
    (docs : List LearningDocument) (a bid : Nat) (t : List Char) (rp : ContentBlock)
    (ht : t ≠ []) (hrp : (parseTextToBlocks seg t).head? = some rp) :
    ∃ res, updateBlock seg docs a bid { text := some t } = some res ∧
      res.length = docs.length ∧
      (∀ w ∈ rp.words, w.translation = none ∧ w.definition = none) ∧
      (∀ i d r, docs.get? i = some d → res.get? i = some r →
        (d.id ≠ a → r = d) ∧
        (d.id = a →
          r.id = d.id ∧ r.title = d.title ∧ r.createdAt = d.createdAt ∧
          r.viewMode = d.viewMode ∧ r.blocks.length = d.blocks.length ∧
          (∀ j b rb, d.blocks.get? j = some b → r.blocks.get? j = some rb →
            (b.id ≠ bid → rb = b) ∧
            (b.id = bid → b.text = t → rb = b) ∧
            (b.id = bid → b.text ≠ t →
              rb.id = b.id ∧ rb.text = t ∧ rb.words = rp.words ∧
              rb.translation = none ∧ rb.sentenceTranslations = none ∧
              rb.grammarAnalyses = b.grammarAnalyses)))) := by
  refine ⟨docs.map (editTextInDoc t rp a bid),
    updateBlock_text_eq seg docs a bid t rp ht hrp, by simp, ?_, ?_⟩
  · intro w hw
    have hshape := parse_token_shape seg t rp (head?_mem _ _ hrp) w hw
    exact ⟨hshape.2.1, hshape.2.2⟩
  · intro i d r hd hr
    rw [List.get?_map, hd] at hr
    simp at hr
    subst hr
    constructor
    · intro hda
      simp [editTextInDoc, hda]
    · intro hda
      unfold editTextInDoc
      rw [if_pos hda]
      refine ⟨rfl, rfl, rfl, rfl, by simp, ?_⟩
      intro j b rb hb hrb
      simp only [List.get?_map, hb] at hrb
      simp at hrb
      subst hrb
      refine ⟨?_, ?_, ?_⟩
      · intro hbb
        simp [editTextInBlock, hbb]
      · intro hbb htb
        unfold editTextInBlock
        rw [if_pos hbb, if_pos htb.symm]
      · intro hbb htb
        unfold editTextInBlock
        have htb2 : ¬ t = b.text := fun he => htb he.symm
        rw [if_pos hbb, if_neg htb2]
        exact ⟨rfl, rfl, rfl, rfl, rfl, rfl⟩

/-- Closed instance of `c2_edit_invalidation` at a concrete one-block
state and the nonempty new text Ok. -/
theorem c2_edit_invalidation_witness :
    (updateBlock oneSegment [{ emptyDoc with blocks := [sampleBlock 1 ['A']] }] 0 1
        { text := some ['O', 'k'] }).isSome = true := by
  obtain ⟨res, hres, -⟩ := c2_edit_invalidation oneSegment
    [{ emptyDoc with blocks := [sampleBlock 1 ['A']] }] 0 1 ['O', 'k']
    ((parseTextToBlocks oneSegment ['O', 'k']).headD (mkBlock oneSegment 0 []))
    (by decide) (by decide)
  rw [hres]
  rfl

/-- Sample token carrying enrichment, for the C2 counterexample. -/
def enrichedWord : WordData :=
  { id := 5, text := ['H', 'i'], cleanText := ['H', 'i'], translation := some ['x'],
    definition := some ['y'], sentenceIndex := 0 }

/-- Sample block carrying enrichment, for the C2 counterexample. -/
def enrichedBlock : ContentBlock :=
  { id := 1, text := ['H', 'i'], words := [enrichedWord], translation := some ['t'],
    sentenceTranslations := some [['t']], grammarAnalyses := [] }

/-- C2 counterexample: updating the block text to the empty string — which
differs from the current text — does not regenerate the tokens and does
not clear any translation; the truthiness guard of the source treats the
present-but-empty text update as absent and only overwrites the text
field. -/
theorem c2_counterexample :
    ([] : List Char) ≠ enrichedBlock.text ∧
    updateBlock oneSegment
        [{ emptyDoc with blocks := [enrichedBlock] }] 0 1 { text := some [] } =
      some [{ emptyDoc with blocks := [{ enrichedBlock with text := [] }] }] := by
  constructor
  · decide
  · rfl
